import Mathlib

/-!
Verification of the efflux IO binding core (src/io.rs).

The file embeds, as executable Lean definitions:
  * the byte-line extraction performed over the input stream,
  * strict UTF-8 text decoding (Rust String::from_utf8),
  * the Lifecycle hook contract and the run_lifecycle driver loop,
and proves the delivery, ordering and error-tolerance guarantees of the
driver against these definitions.
-/

namespace Efflux

/-! ## Byte line extraction -/

/-- Modelled from the spec: the line-delimited chunk extraction used by the
driver comes from the external bytelines crate (byte_lines), which is not part
of this repository's sources.  Per the spec, lines are delimited by a
line-terminator byte sequence; bytelines splits the raw byte stream on the
LF byte and strips the terminating LF together with one immediately preceding
CR (a final chunk not terminated by LF is yielded unchanged).  `stripLine`
performs the terminator stripping on one raw chunk. -/
def stripLine (l : List Nat) : List Nat :=
  if l.getLast? = some 10 then
    if l.dropLast.getLast? = some 13 then l.dropLast.dropLast else l.dropLast
  else l

/-- Modelled from the spec: splitting of the raw byte stream into chunks, each
inner chunk including its terminating LF byte; a nonempty final unterminated
chunk is also yielded.  `acc` is the partial current chunk. -/
def splitAux : List Nat → List Nat → List (List Nat)
  | [], acc => if acc = [] then [] else [acc]
  | b :: rest, acc =>
    if b = 10 then (acc ++ [10]) :: splitAux rest []
    else splitAux rest (acc ++ [b])

/-- Raw line-terminated chunks of a byte stream. -/
def readChunks (bs : List Nat) : List (List Nat) :=
  splitAux bs []

/-- Modelled from the spec: the sequence of raw byte lines the driver's
iterator yields for a given byte stream — chunks split on LF, each stripped of
its terminator (LF plus one immediately preceding CR). -/
def byteLines (bs : List Nat) : List (List Nat) :=
  (readChunks bs).map stripLine

/-! ## UTF-8 decoding (String::from_utf8) -/

/-- Whether a byte is a UTF-8 continuation byte (0x80–0xBF). -/
def isCont (b : Nat) : Bool :=
  0x80 ≤ b && b ≤ 0xBF

/-- Strict UTF-8 decoding of a byte list into characters, following the
validation performed by Rust's String::from_utf8: rejects stray continuation
bytes, truncated sequences, overlong encodings, surrogate code points and
code points above 0x10FFFF.  Returns `none` exactly when the bytes are not
valid UTF-8. -/
def utf8DecodeChars : List Nat → Option (List Char)
  | [] => some []
  | b :: rest =>
    if b ≤ 0x7F then
      (utf8DecodeChars rest).map (fun cs => Char.ofNat b :: cs)
    else if 0xC2 ≤ b && b ≤ 0xDF then
      match rest with
      | b1 :: rest2 =>
        if isCont b1 then
          (utf8DecodeChars rest2).map
            (fun cs => Char.ofNat ((b - 0xC0) * 64 + (b1 - 0x80)) :: cs)
        else none
      | [] => none
    else if b = 0xE0 then
      match rest with
      | b1 :: b2 :: rest2 =>
        if (0xA0 ≤ b1 && b1 ≤ 0xBF) && isCont b2 then
          (utf8DecodeChars rest2).map
            (fun cs =>
              Char.ofNat ((b - 0xE0) * 4096 + (b1 - 0x80) * 64 + (b2 - 0x80)) :: cs)
        else none
      | _ => none
    else if (0xE1 ≤ b && b ≤ 0xEC) || (0xEE ≤ b && b ≤ 0xEF) then
      match rest with
      | b1 :: b2 :: rest2 =>
        if isCont b1 && isCont b2 then
          (utf8DecodeChars rest2).map
            (fun cs =>
              Char.ofNat ((b - 0xE0) * 4096 + (b1 - 0x80) * 64 + (b2 - 0x80)) :: cs)
        else none
      | _ => none
    else if b = 0xED then
      match rest with
      | b1 :: b2 :: rest2 =>
        if (0x80 ≤ b1 && b1 ≤ 0x9F) && isCont b2 then
          (utf8DecodeChars rest2).map
            (fun cs =>
              Char.ofNat ((b - 0xE0) * 4096 + (b1 - 0x80) * 64 + (b2 - 0x80)) :: cs)
        else none
      | _ => none
    else if b = 0xF0 then
      match rest with
      | b1 :: b2 :: b3 :: rest2 =>
        if ((0x90 ≤ b1 && b1 ≤ 0xBF) && isCont b2) && isCont b3 then
          (utf8DecodeChars rest2).map
            (fun cs =>
              Char.ofNat ((b - 0xF0) * 262144 + (b1 - 0x80) * 4096 +
                (b2 - 0x80) * 64 + (b3 - 0x80)) :: cs)
        else none
      | _ => none
    else if 0xF1 ≤ b && b ≤ 0xF3 then
      match rest with
      | b1 :: b2 :: b3 :: rest2 =>
        if (isCont b1 && isCont b2) && isCont b3 then
          (utf8DecodeChars rest2).map
            (fun cs =>
              Char.ofNat ((b - 0xF0) * 262144 + (b1 - 0x80) * 4096 +
                (b2 - 0x80) * 64 + (b3 - 0x80)) :: cs)
        else none
      | _ => none
    else if b = 0xF4 then
      match rest with
      | b1 :: b2 :: b3 :: rest2 =>
        if ((0x80 ≤ b1 && b1 ≤ 0x8F) && isCont b2) && isCont b3 then
          (utf8DecodeChars rest2).map
            (fun cs =>
              Char.ofNat ((b - 0xF0) * 262144 + (b1 - 0x80) * 4096 +
                (b2 - 0x80) * 64 + (b3 - 0x80)) :: cs)
        else none
      | _ => none
    else none

/-- Rust's `String::from_utf8`, embedded: strict UTF-8 decoding of a byte line
into a string, `none` on invalid input. -/
def string_from_utf8 (bs : List Nat) : Option String :=
  (utf8DecodeChars bs).map (fun cs => String.mk cs)

/-! ## The Lifecycle hook contract and driver -/

/-- The Lifecycle trait of src/io.rs: three hook operations over a stage state
`S` and a job context `C`.  The Rust hooks take `&mut self` and `&mut Context`
(and `on_entry` additionally an owned line `String`); in the embedding each
hook is a function from the current stage and context to the updated pair. -/
structure Lifecycle (S C : Type) where
  on_start : S → C → S × C
  on_entry : S → String → C → S × C
  on_end : S → C → S × C

/-- A stage overriding none of the three hooks: each hook keeps the defaulted
no-op body of the Lifecycle trait, returning stage and context unchanged. -/
def Lifecycle.noop (S C : Type) : Lifecycle S C where
  on_start := fun s c => (s, c)
  on_entry := fun s _ c => (s, c)
  on_end := fun s c => (s, c)

/-- One result of the byte-line iterator over the input stream: either an I/O
error on that line, or the raw bytes of the line (terminator already
stripped). -/
inductive ReadResult where
  | err : ReadResult
  | ok : List Nat → ReadResult
deriving DecidableEq, Repr

/-- Record of one hook invocation made by the driver, carrying the context
value passed into the call and the context value it produced; entry records
also carry the delivered line. -/
inductive HookCall (C : Type) where
  | start : C → C → HookCall C
  | entry : String → C → C → HookCall C
  | stop : C → C → HookCall C
deriving DecidableEq, Repr

/-- The hook kind of a call record, with the delivered line for entry calls. -/
inductive EvKind where
  | start : EvKind
  | entry : String → EvKind
  | stop : EvKind
deriving DecidableEq, Repr

def HookCall.kind {C : Type} : HookCall C → EvKind
  | .start _ _ => .start
  | .entry str _ _ => .entry str
  | .stop _ _ => .stop

def HookCall.ctxIn {C : Type} : HookCall C → C
  | .start a _ => a
  | .entry _ a _ => a
  | .stop a _ => a

def HookCall.ctxOut {C : Type} : HookCall C → C
  | .start _ b => b
  | .entry _ _ b => b
  | .stop _ b => b

/-- The lines delivered by entry calls of a trace, in order. -/
def entriesOf {C : Type} (t : List (HookCall C)) : List String :=
  t.filterMap fun h =>
    match h with
    | .entry str _ _ => some str
    | _ => none

/-- The successfully decoded lines of an input stream, in order: I/O errors and
invalid UTF-8 lines contribute nothing. -/
def decodedLines (inputs : List ReadResult) : List String :=
  inputs.filterMap fun r =>
    match r with
    | .err => none
    | .ok bs => string_from_utf8 bs

/-- Every call of the trace receives exactly the context produced by the
previous call, the first call receiving `c`. -/
def chainFrom {C : Type} (c : C) : List (HookCall C) → Prop
  | [] => True
  | h :: t => h.ctxIn = c ∧ chainFrom h.ctxOut t

/-- The context produced by the last call of the trace (`c` if none). -/
def lastCtx {C : Type} (c : C) : List (HookCall C) → C
  | [] => c
  | h :: t => lastCtx h.ctxOut t

/-- The driver loop of run_lifecycle (src/io.rs lines 42–51): for each read
result, an I/O error is skipped, undecodable bytes are skipped, and a
successfully decoded line is passed to on_entry with the shared context.
Returns the final stage, the final context, and the trace of entry calls
made. -/
def runLoop {S C : Type} (L : Lifecycle S C) :
    List ReadResult → S → C → S × C × List (HookCall C)
  | [], s, c => (s, c, [])
  | .err :: rest, s, c => runLoop L rest s c
  | .ok bytes :: rest, s, c =>
    match string_from_utf8 bytes with
    | none => runLoop L rest s c
    | some str =>
      let sc := L.on_entry s str c
      let r := runLoop L rest sc.1 sc.2
      (r.1, r.2.1, HookCall.entry str c sc.2 :: r.2.2)

/-- run_lifecycle of src/io.rs: constructs a fresh job context, fires on_start,
runs the driver loop over the byte-line read results of the input stream, and
fires on_end.  The standard-input stream is modelled by the list of its
byte-line read results; Context is modelled per the spec as an opaque type
parameter `C` whose zero-argument constructor Context::new yields `c0` (the
context module is not part of the embedded sources).  Returns the final stage
and context together with the trace of hook calls made. -/
def run_lifecycle {S C : Type} (L : Lifecycle S C) (c0 : C)
    (inputs : List ReadResult) (stage : S) : S × C × List (HookCall C) :=
  let sc := L.on_start stage c0
  let r := runLoop L inputs sc.1 sc.2
  let e := L.on_end r.1 r.2.1
  (e.1, e.2,
    HookCall.start c0 sc.2 :: r.2.2 ++ [HookCall.stop r.2.1 e.2])

/-- run_lifecycle applied to a raw byte stream: the read results are the
byte lines of the stream, each read succeeding. -/
def runBytes {S C : Type} (L : Lifecycle S C) (c0 : C) (bs : List Nat)
    (stage : S) : S × C × List (HookCall C) :=
  run_lifecycle L c0 ((byteLines bs).map ReadResult.ok) stage

/-! ## Helper lemmas on line splitting -/

theorem splitAux_append_nl (bs post acc : List Nat) :
    splitAux (bs ++ 10 :: post) acc = splitAux (bs ++ [10]) acc ++ splitAux post [] := by
  induction bs generalizing acc with
  | nil => simp [splitAux]
  | cons b bs ih =>
    by_cases hb : b = 10 <;> simp [splitAux, hb, ih]

theorem splitAux_no_nl (c : List Nat) : ∀ acc : List Nat, 10 ∉ c →
    splitAux c acc = if acc ++ c = [] then [] else [acc ++ c] := by
  induction c with
  | nil => intro acc _; simp [splitAux]
  | cons b c ih =>
    intro acc h
    have hb : b ≠ 10 := fun e => h (by simp [e])
    have hc : 10 ∉ c := fun e => h (by simp [e])
    rw [splitAux, if_neg hb, ih (acc ++ [b]) hc]
    simp

theorem stripLine_of_no_nl {l : List Nat} (h : 10 ∉ l) : stripLine l = l := by
  unfold stripLine
  rw [if_neg]
  intro hl
  exact h (List.mem_of_getLast?_eq_some hl)

theorem stripLine_concat (c : List Nat) :
    stripLine (c ++ [10]) = if c.getLast? = some 13 then c.dropLast else c := by
  simp [stripLine, List.getLast?_concat, List.dropLast_concat]

theorem mem_stripLine {x : Nat} {l : List Nat} (h : x ∈ stripLine l) : x ∈ l := by
  unfold stripLine at h
  split at h
  · split at h
    · exact (List.dropLast_sublist l).subset ((List.dropLast_sublist l.dropLast).subset h)
    · exact (List.dropLast_sublist l).subset h
  · exact h

theorem splitAux_mem_no_nl (bs : List Nat) :
    ∀ acc : List Nat, 10 ∉ acc → ∀ l ∈ splitAux bs acc, 10 ∉ stripLine l := by
  induction bs with
  | nil =>
    intro acc hacc l hl
    rw [splitAux] at hl
    split at hl
    · simp at hl
    · simp at hl
      subst hl
      exact fun hx => hacc (mem_stripLine hx)
  | cons b bs ih =>
    intro acc hacc l hl
    rw [splitAux] at hl
    split at hl
    · rcases List.mem_cons.1 hl with h1 | h2
      · subst h1
        rw [stripLine_concat]
        split
        · exact fun hx => hacc ((List.dropLast_sublist acc).subset hx)
        · exact hacc
      · exact ih [] (by simp) l h2
    · refine ih (acc ++ [b]) ?_ l hl
      intro hx
      rcases List.mem_append.1 hx with h1 | h2
      · exact hacc h1
      · simp at h2
        rename_i hb
        exact hb h2.symm

theorem byteLines_append_nl (bs post : List Nat) :
    byteLines (bs ++ 10 :: post) = byteLines (bs ++ [10]) ++ byteLines post := by
  unfold byteLines readChunks
  rw [splitAux_append_nl, List.map_append]

theorem byteLines_single_no_nl {last : List Nat} (h10 : 10 ∉ last) (hne : last ≠ []) :
    byteLines last = [last] := by
  simp [byteLines, readChunks, splitAux_no_nl last [] h10, hne, stripLine_of_no_nl h10]

theorem byteLines_cons_nl (post : List Nat) :
    byteLines (10 :: post) = [] :: byteLines post := by
  have h1 : splitAux (10 :: post) [] = [10] :: splitAux post [] := by
    simp [splitAux]
  have h2 : stripLine [10] = [] := by rfl
  simp [byteLines, readChunks, h1, h2]

theorem byteLines_mem_no_nl (bs : List Nat) : ∀ l ∈ byteLines bs, 10 ∉ l := by
  intro l hl
  rcases List.mem_map.1 hl with ⟨ch, hch, rfl⟩
  exact splitAux_mem_no_nl bs [] (by simp) ch hch

/-! ## Unfolding equations for the driver -/

section Driver

variable {S C : Type} (L : Lifecycle S C)

theorem entriesOf_entry_cons (str : String) (a b : C) (t : List (HookCall C)) :
    entriesOf (HookCall.entry str a b :: t) = str :: entriesOf t := by
  simp [entriesOf]

theorem decodedLines_err_cons (rest : List ReadResult) :
    decodedLines (ReadResult.err :: rest) = decodedLines rest := by
  simp [decodedLines, List.filterMap_cons]

theorem decodedLines_ok_cons_none {bs : List Nat} (h : string_from_utf8 bs = none)
    (rest : List ReadResult) :
    decodedLines (ReadResult.ok bs :: rest) = decodedLines rest := by
  simp [decodedLines, List.filterMap_cons, h]

theorem decodedLines_ok_cons_some {bs : List Nat} {str : String}
    (h : string_from_utf8 bs = some str) (rest : List ReadResult) :
    decodedLines (ReadResult.ok bs :: rest) = str :: decodedLines rest := by
  simp [decodedLines, List.filterMap_cons, h]

theorem runLoop_nil (s : S) (c : C) : runLoop L [] s c = (s, c, []) := rfl

theorem runLoop_err (rest : List ReadResult) (s : S) (c : C) :
    runLoop L (ReadResult.err :: rest) s c = runLoop L rest s c := rfl

theorem runLoop_ok_none {bytes : List Nat} (h : string_from_utf8 bytes = none)
    (rest : List ReadResult) (s : S) (c : C) :
    runLoop L (ReadResult.ok bytes :: rest) s c = runLoop L rest s c := by
  simp only [runLoop, h]

theorem runLoop_ok_some {bytes : List Nat} {str : String}
    (h : string_from_utf8 bytes = some str) (rest : List ReadResult) (s : S) (c : C) :
    runLoop L (ReadResult.ok bytes :: rest) s c =
      ((runLoop L rest (L.on_entry s str c).1 (L.on_entry s str c).2).1,
       (runLoop L rest (L.on_entry s str c).1 (L.on_entry s str c).2).2.1,
       HookCall.entry str c (L.on_entry s str c).2 ::
         (runLoop L rest (L.on_entry s str c).1 (L.on_entry s str c).2).2.2) := by
  simp only [runLoop, h]

theorem run_lifecycle_eq (c0 : C) (inputs : List ReadResult) (s : S) :
    run_lifecycle L c0 inputs s =
      ((L.on_end (runLoop L inputs (L.on_start s c0).1 (L.on_start s c0).2).1
          (runLoop L inputs (L.on_start s c0).1 (L.on_start s c0).2).2.1).1,
       (L.on_end (runLoop L inputs (L.on_start s c0).1 (L.on_start s c0).2).1
          (runLoop L inputs (L.on_start s c0).1 (L.on_start s c0).2).2.1).2,
       HookCall.start c0 (L.on_start s c0).2 ::
         (runLoop L inputs (L.on_start s c0).1 (L.on_start s c0).2).2.2 ++
           [HookCall.stop
              (runLoop L inputs (L.on_start s c0).1 (L.on_start s c0).2).2.1
              (L.on_end (runLoop L inputs (L.on_start s c0).1 (L.on_start s c0).2).1
                 (runLoop L inputs (L.on_start s c0).1 (L.on_start s c0).2).2.1).2]) :=
  rfl

/-! ## Helper lemmas on the driver loop -/

theorem runLoop_entriesOf (inputs : List ReadResult) :
    ∀ (s : S) (c : C), entriesOf (runLoop L inputs s c).2.2 = decodedLines inputs := by
  induction inputs with
  | nil => intro s c; rfl
  | cons r rest ih =>
    intro s c
    cases r with
    | err => rw [runLoop_err, ih, decodedLines_err_cons]
    | ok bytes =>
      cases hd : string_from_utf8 bytes with
      | none => rw [runLoop_ok_none L hd, ih, decodedLines_ok_cons_none hd]
      | some str =>
        rw [runLoop_ok_some L hd]
        dsimp only
        rw [entriesOf_entry_cons, ih, decodedLines_ok_cons_some hd]

theorem runLoop_trace_length (inputs : List ReadResult) :
    ∀ (s : S) (c : C),
      (runLoop L inputs s c).2.2.length = (decodedLines inputs).length := by
  induction inputs with
  | nil => intro s c; rfl
  | cons r rest ih =>
    intro s c
    cases r with
    | err => rw [runLoop_err, ih, decodedLines_err_cons]
    | ok bytes =>
      cases hd : string_from_utf8 bytes with
      | none => rw [runLoop_ok_none L hd, ih, decodedLines_ok_cons_none hd]
      | some str =>
        rw [runLoop_ok_some L hd, decodedLines_ok_cons_some hd]
        dsimp only [List.length_cons]
        rw [ih]

theorem runLoop_kinds_entry (inputs : List ReadResult) :
    ∀ (s : S) (c : C) (h : HookCall C), h ∈ (runLoop L inputs s c).2.2 →
      ∃ str a b, h = HookCall.entry str a b := by
  induction inputs with
  | nil => intro s c h hh; rw [runLoop_nil] at hh; simp at hh
  | cons r rest ih =>
    intro s c h hh
    cases r with
    | err => rw [runLoop_err] at hh; exact ih _ _ h hh
    | ok bytes =>
      cases hd : string_from_utf8 bytes with
      | none => rw [runLoop_ok_none L hd] at hh; exact ih _ _ h hh
      | some str =>
        rw [runLoop_ok_some L hd] at hh
        dsimp only at hh
        rcases List.mem_cons.1 hh with h1 | h2
        · exact ⟨str, c, _, h1⟩
        · exact ih _ _ h h2

theorem runLoop_chain (inputs : List ReadResult) :
    ∀ (s : S) (c : C), chainFrom c (runLoop L inputs s c).2.2 ∧
      lastCtx c (runLoop L inputs s c).2.2 = (runLoop L inputs s c).2.1 := by
  induction inputs with
  | nil => intro s c; exact ⟨trivial, rfl⟩
  | cons r rest ih =>
    intro s c
    cases r with
    | err => rw [runLoop_err]; exact ih s c
    | ok bytes =>
      cases hd : string_from_utf8 bytes with
      | none => rw [runLoop_ok_none L hd]; exact ih s c
      | some str =>
        rw [runLoop_ok_some L hd]
        dsimp only
        exact ⟨⟨rfl, (ih _ _).1⟩, (ih _ _).2⟩

theorem runLoop_noop (S C : Type) (inputs : List ReadResult) :
    ∀ (s : S) (c : C),
      (runLoop (Lifecycle.noop S C) inputs s c).1 = s ∧
      (runLoop (Lifecycle.noop S C) inputs s c).2.1 = c ∧
      (runLoop (Lifecycle.noop S C) inputs s c).2.2.map HookCall.ctxOut =
        (runLoop (Lifecycle.noop S C) inputs s c).2.2.map HookCall.ctxIn := by
  induction inputs with
  | nil => intro s c; exact ⟨rfl, rfl, rfl⟩
  | cons r rest ih =>
    intro s c
    cases r with
    | err => rw [runLoop_err]; exact ih s c
    | ok bytes =>
      cases hd : string_from_utf8 bytes with
      | none => rw [runLoop_ok_none _ hd]; exact ih s c
      | some str =>
        rw [runLoop_ok_some _ hd]
        refine ⟨(ih s c).1, (ih s c).2.1, ?_⟩
        show List.map HookCall.ctxOut
            (HookCall.entry str c c :: (runLoop (Lifecycle.noop S C) rest s c).2.2) =
          List.map HookCall.ctxIn
            (HookCall.entry str c c :: (runLoop (Lifecycle.noop S C) rest s c).2.2)
        rw [List.map_cons, List.map_cons, (ih s c).2.2]
        rfl

theorem entriesOf_start_cons (a b : C) (t : List (HookCall C)) :
    entriesOf (HookCall.start a b :: t) = entriesOf t := by
  simp [entriesOf]

theorem entriesOf_append (t1 t2 : List (HookCall C)) :
    entriesOf (t1 ++ t2) = entriesOf t1 ++ entriesOf t2 := by
  simp [entriesOf]

theorem entriesOf_stop (a b : C) : entriesOf [HookCall.stop a b] = [] := rfl

theorem run_lifecycle_entriesOf (c0 : C) (inputs : List ReadResult) (s : S) :
    entriesOf (run_lifecycle L c0 inputs s).2.2 = decodedLines inputs := by
  rw [run_lifecycle_eq]
  dsimp only
  rw [entriesOf_append, entriesOf_start_cons, entriesOf_stop, runLoop_entriesOf,
    List.append_nil]

theorem runBytes_entriesOf (c0 : C) (bs : List Nat) (s : S) :
    entriesOf (runBytes L c0 bs s).2.2 = (byteLines bs).filterMap string_from_utf8 := by
  unfold runBytes
  rw [run_lifecycle_entriesOf]
  unfold decodedLines
  rw [List.filterMap_map]
  rfl

theorem chainFrom_append (t1 t2 : List (HookCall C)) (c : C) :
    chainFrom c (t1 ++ t2) ↔ chainFrom c t1 ∧ chainFrom (lastCtx c t1) t2 := by
  induction t1 generalizing c with
  | nil => simp [chainFrom, lastCtx]
  | cons h t ih => simp [chainFrom, lastCtx, ih, and_assoc]

theorem lastCtx_append (t1 t2 : List (HookCall C)) (c : C) :
    lastCtx c (t1 ++ t2) = lastCtx (lastCtx c t1) t2 := by
  induction t1 generalizing c with
  | nil => rfl
  | cons h t ih => simp [lastCtx, ih]

end Driver

theorem filterMap_of_map_some {α β : Type} (f : α → Option β) :
    ∀ (l : List α) (d : List β), l.map f = d.map some → l.filterMap f = d := by
  intro l
  induction l with
  | nil =>
    intro d h
    cases d with
    | nil => rfl
    | cons b d => simp at h
  | cons a l ih =>
    intro d h
    cases d with
    | nil => simp at h
    | cons b d =>
      rw [List.map_cons, List.map_cons] at h
      injection h with h1 h2
      rw [List.filterMap_cons, h1]
      rw [ih d h2]

/-! ## Claim theorems -/

/-- C1: for every input stream whose byte lines are all validly encoded
(each decoding to the corresponding element of `dec`), run_lifecycle invokes
on_entry exactly once per line, with the decoded line content (terminator
already stripped by the line extraction), in exactly the input order, with no
reordering, drops or duplication. -/
theorem spec_C1 {S C : Type} (L : Lifecycle S C) (c0 : C) (stage : S)
    (bs : List Nat) (dec : List String)
    (h : (byteLines bs).map string_from_utf8 = dec.map some) :
    entriesOf (runBytes L c0 bs stage).2.2 = dec ∧
      dec.length = (byteLines bs).length := by
  constructor
  · rw [runBytes_entriesOf]
    exact filterMap_of_map_some _ _ _ h
  · have hlen := congrArg List.length h
    simpa using hlen.symm

/-- Witness for C1: on the stream "a\nb\nc\n" (bytes 97 10 98 10 99 10) all
three lines decode, and the delivered entries are exactly "a", "b", "c". -/
theorem spec_C1_witness :
    (byteLines [97, 10, 98, 10, 99, 10]).map string_from_utf8 =
        (["a", "b", "c"]).map some ∧
      entriesOf (runBytes (Lifecycle.noop Unit Unit) () [97, 10, 98, 10, 99, 10] ()).2.2 =
        ["a", "b", "c"] :=
  ⟨by decide,
   (spec_C1 (Lifecycle.noop Unit Unit) () () [97, 10, 98, 10, 99, 10]
      ["a", "b", "c"] (by decide)).1⟩

/-- C2: for every input stream the hook-call sequence of run_lifecycle is
exactly one on_start call, then zero or more on_entry calls, then exactly one
on_end call; on the empty stream on_end immediately follows on_start with zero
on_entry calls. -/
theorem spec_C2 {S C : Type} (L : Lifecycle S C) (c0 : C)
    (inputs : List ReadResult) (s : S) :
    (∃ mid, (run_lifecycle L c0 inputs s).2.2.map HookCall.kind =
        EvKind.start :: mid ++ [EvKind.stop] ∧
        ∀ k ∈ mid, ∃ str, k = EvKind.entry str) ∧
      (inputs = [] →
        (run_lifecycle L c0 inputs s).2.2.map HookCall.kind =
          [EvKind.start, EvKind.stop]) := by
  constructor
  · refine ⟨(runLoop L inputs (L.on_start s c0).1 (L.on_start s c0).2).2.2.map
      HookCall.kind, ?_, ?_⟩
    · rw [run_lifecycle_eq]
      dsimp only
      rw [List.map_append, List.map_cons]
      rfl
    · intro k hk
      rcases List.mem_map.1 hk with ⟨h, hmem, rfl⟩
      rcases runLoop_kinds_entry L inputs _ _ h hmem with ⟨str, a, b, rfl⟩
      exact ⟨str, rfl⟩
  · intro h
    subst h
    rfl

/-- Witness for C2: on the empty stream the kinds of the calls are exactly
start then stop. -/
theorem spec_C2_witness :
    (run_lifecycle (Lifecycle.noop Unit Unit) () [] ()).2.2.map HookCall.kind =
      [EvKind.start, EvKind.stop] :=
  (spec_C2 (Lifecycle.noop Unit Unit) () [] ()).2 rfl

/-- C3: for any input stream mixing valid and invalid byte lines, the entry
calls deliver exactly the successfully decoded lines, in their original
relative order; a line whose read fails or whose bytes are not valid UTF-8
contributes no call and does not stop processing of later lines. -/
theorem spec_C3 {S C : Type} (L : Lifecycle S C) (c0 : C)
    (inputs : List ReadResult) (s : S) :
    entriesOf (run_lifecycle L c0 inputs s).2.2 = decodedLines inputs :=
  run_lifecycle_entriesOf L c0 inputs s

/-- C4: an I/O error on an individual line read is skipped silently: the whole
run (final stage, final context and hook-call trace) equals the run on the
stream with that read result removed, so no hook fires for the failed line, no
error is surfaced, and later lines are still processed. -/
theorem spec_C4 {S C : Type} (L : Lifecycle S C) (c0 : C) (s : S)
    (pre post : List ReadResult) :
    run_lifecycle L c0 (pre ++ ReadResult.err :: post) s =
      run_lifecycle L c0 (pre ++ post) s := by
  have hloop : ∀ (pre : List ReadResult) (st : S) (c : C),
      runLoop L (pre ++ ReadResult.err :: post) st c =
        runLoop L (pre ++ post) st c := by
    intro pre
    induction pre with
    | nil =>
      intro st c
      rw [List.nil_append, List.nil_append, runLoop_err]
    | cons r rest ih =>
      intro st c
      cases r with
      | err =>
        rw [List.cons_append, runLoop_err, ih, List.cons_append, runLoop_err]
      | ok bytes =>
        cases hd : string_from_utf8 bytes with
        | none =>
          rw [List.cons_append, runLoop_ok_none L hd, ih, List.cons_append,
            runLoop_ok_none L hd]
        | some str =>
          rw [List.cons_append, runLoop_ok_some L hd, List.cons_append,
            runLoop_ok_some L hd, ih]
  rw [run_lifecycle_eq, run_lifecycle_eq, hloop]

/-- C5: a single run threads one job context through all hooks: the first hook
call receives the freshly constructed context, every later call receives
exactly the context produced by the previous call, and the context returned by
the run is the one produced by the last call — so mutations made in on_start
or earlier on_entry calls are visible in every later call. -/
theorem spec_C5 {S C : Type} (L : Lifecycle S C) (c0 : C)
    (inputs : List ReadResult) (s : S) :
    chainFrom c0 (run_lifecycle L c0 inputs s).2.2 ∧
      ((run_lifecycle L c0 inputs s).2.2.head?).map HookCall.ctxIn = some c0 ∧
      (run_lifecycle L c0 inputs s).2.1 =
        lastCtx c0 (run_lifecycle L c0 inputs s).2.2 := by
  rw [run_lifecycle_eq]
  dsimp only
  refine ⟨?_, ?_, ?_⟩
  · rw [chainFrom_append]
    refine ⟨⟨rfl, (runLoop_chain L inputs _ _).1⟩, ?_⟩
    show chainFrom _ [HookCall.stop _ _]
    refine ⟨?_, trivial⟩
    show (runLoop L inputs (L.on_start s c0).1 (L.on_start s c0).2).2.1 =
      lastCtx c0 (HookCall.start c0 (L.on_start s c0).2 ::
        (runLoop L inputs (L.on_start s c0).1 (L.on_start s c0).2).2.2)
    show (runLoop L inputs (L.on_start s c0).1 (L.on_start s c0).2).2.1 =
      lastCtx (L.on_start s c0).2
        (runLoop L inputs (L.on_start s c0).1 (L.on_start s c0).2).2.2
    exact ((runLoop_chain L inputs _ _).2).symm
  · rfl
  · rw [lastCtx_append]
    show _ = lastCtx (lastCtx (L.on_start s c0).2
      (runLoop L inputs (L.on_start s c0).1 (L.on_start s c0).2).2.2)
      [HookCall.stop _ _]
    rw [(runLoop_chain L inputs _ _).2]
    rfl

/-- C6: a stage overriding none of the three hooks (all trait defaults, each a
no-op) runs to completion on any input with no observable effect: the final
stage equals the initial stage, the final context equals the freshly
constructed context, and every hook call leaves the context it was given
unchanged. -/
theorem spec_C6 (S C : Type) (c0 : C) (inputs : List ReadResult) (s : S) :
    (run_lifecycle (Lifecycle.noop S C) c0 inputs s).1 = s ∧
      (run_lifecycle (Lifecycle.noop S C) c0 inputs s).2.1 = c0 ∧
      (run_lifecycle (Lifecycle.noop S C) c0 inputs s).2.2.map HookCall.ctxOut =
        (run_lifecycle (Lifecycle.noop S C) c0 inputs s).2.2.map HookCall.ctxIn := by
  have hn := runLoop_noop S C inputs s c0
  refine ⟨?_, ?_, ?_⟩
  · exact hn.1
  · exact hn.2.1
  · rw [run_lifecycle_eq]
    dsimp only
    rw [List.map_append, List.map_append, List.map_cons, List.map_cons]
    show HookCall.ctxOut _ :: List.map HookCall.ctxOut
        (runLoop (Lifecycle.noop S C) inputs s c0).2.2 ++ _ =
      HookCall.ctxIn _ :: List.map HookCall.ctxIn
        (runLoop (Lifecycle.noop S C) inputs s c0).2.2 ++ _
    rw [hn.2.2]
    rfl

/-- C7: a final line not followed by a trailing terminator is still delivered:
appended after any LF-terminated prefix, an unterminated nonempty final byte
line yields exactly one additional entry (its decoding, when valid), after the
entries of the prefix. -/
theorem spec_C7 {S C : Type} (L : Lifecycle S C) (c0 : C) (s : S)
    (bs last : List Nat) (h10 : 10 ∉ last) (hne : last ≠ []) :
    entriesOf (runBytes L c0 (bs ++ 10 :: last) s).2.2 =
      entriesOf (runBytes L c0 (bs ++ [10]) s).2.2 ++
        (string_from_utf8 last).toList := by
  rw [runBytes_entriesOf, runBytes_entriesOf, byteLines_append_nl,
    List.filterMap_append, byteLines_single_no_nl h10 hne]
  cases hfa : string_from_utf8 last <;>
    simp [List.filterMap_cons, hfa]

/-- Witness for C7: the unterminated input "a\nb" (bytes 97 10 98) delivers
the final partial line "b" after the entry "a" of the terminated prefix. -/
theorem spec_C7_witness :
    entriesOf (runBytes (Lifecycle.noop Unit Unit) () ([97] ++ 10 :: [98]) ()).2.2 =
      entriesOf (runBytes (Lifecycle.noop Unit Unit) () ([97] ++ [10]) ()).2.2 ++
        (string_from_utf8 [98]).toList :=
  spec_C7 (Lifecycle.noop Unit Unit) () () [97] [98] (by decide) (by decide)

/-- C8: run_lifecycle is a total function of the input stream: the loop
processes the whole finite stream (the trace holds exactly one entry per
decodable line plus the two bracket calls), the last hook call is on_end, and
the run produces a plain result with no error value. -/
theorem spec_C8 {S C : Type} (L : Lifecycle S C) (c0 : C)
    (inputs : List ReadResult) (s : S) :
    (∃ a b, ((run_lifecycle L c0 inputs s).2.2).getLast? =
        some (HookCall.stop a b)) ∧
      (run_lifecycle L c0 inputs s).2.2.length =
        2 + (decodedLines inputs).length := by
  rw [run_lifecycle_eq]
  dsimp only
  constructor
  · exact ⟨_, _, List.getLast?_concat _⟩
  · simp only [List.length_append, List.length_cons, List.length_nil,
      runLoop_trace_length]
    omega

/-- C9: a zero-length line (two consecutive LF bytes) is not dropped: the
empty byte sequence decodes as valid UTF-8 to the empty string, and the stage
receives one entry call with value "" at that line's position in the input
order. -/
theorem spec_C9 {S C : Type} (L : Lifecycle S C) (c0 : C) (s : S)
    (bs post : List Nat) :
    string_from_utf8 [] = some "" ∧
      entriesOf (runBytes L c0 (bs ++ 10 :: 10 :: post) s).2.2 =
        entriesOf (runBytes L c0 (bs ++ [10]) s).2.2 ++
          "" :: entriesOf (runBytes L c0 post s).2.2 := by
  refine ⟨rfl, ?_⟩
  rw [runBytes_entriesOf, runBytes_entriesOf, runBytes_entriesOf,
    byteLines_append_nl bs (10 :: post), byteLines_cons_nl,
    List.filterMap_append, List.filterMap_cons]
  rfl

/-- C10 counterexample: on input "a\r\r\n" (bytes 97 13 13 10) the single
delivered entry is the string with characters 'a' and CR — a string passed to
on_entry that ends with a carriage return, contradicting the claim that the
delivered string never ends with CR. -/
theorem spec_C10_counterexample :
    entriesOf (runBytes (Lifecycle.noop Unit Unit) () [97, 13, 13, 10] ()).2.2 =
        [String.mk [Char.ofNat 97, Char.ofNat 13]] ∧
      (String.mk [Char.ofNat 97, Char.ofNat 13]).data.getLast? =
        some (Char.ofNat 13) ∧
      Char.ofNat 13 = '\r' := by
  refine ⟨by decide, by decide, rfl⟩

/-- C10 amended: line splitting treats LF and CRLF alike — each raw line's
terminating LF together with one immediately preceding CR is stripped before
decoding, and no delivered byte line ever contains an LF byte; however a
delivered line may still end with CR (e.g. when a raw line ends in CR CR LF,
only one CR being stripped, or when an unterminated final line ends in CR).
For line content not itself ending in CR, a CRLF terminator and an LF
terminator yield the same delivered line. -/
theorem spec_C10 :
    (∀ bs : List Nat, ∀ l ∈ byteLines bs, 10 ∉ l) ∧
      (∀ c : List Nat, stripLine (c ++ [13, 10]) = c) ∧
      (∀ c : List Nat, c.getLast? ≠ some 13 →
        stripLine (c ++ [13, 10]) = stripLine (c ++ [10])) := by
  have hcrlf : ∀ c : List Nat, stripLine (c ++ [13, 10]) = c := by
    intro c
    have : c ++ [13, 10] = (c ++ [13]) ++ [10] := by simp
    rw [this, stripLine_concat, if_pos (List.getLast?_concat c),
      List.dropLast_concat]
  refine ⟨byteLines_mem_no_nl, hcrlf, ?_⟩
  intro c hc
  rw [hcrlf c, stripLine_concat, if_neg hc]

/-- Witness for C10 amended: the byte line delivered for input "a\n" is [97],
which contains no LF byte. -/
theorem spec_C10_witness :
    ([97] : List Nat) ∈ byteLines [97, 10] ∧ (10 : Nat) ∉ ([97] : List Nat) :=
  ⟨by decide, spec_C10.1 [97, 10] [97] (by decide)⟩

end Efflux
